import Mathlib

/-!
# EdgesWeightedDelaunay3D: normalisation and edge extraction

A shallow embedding of `src/GDelaunay/Main/EdgesWeightedDelaunay3D.cpp`.

* Real values (`float`, `RealType`) are exact rationals.  A value that the
  C++ arithmetic obtains by dividing by zero is not a number of the exact
  model; it is represented by `none` in `Option ℚ`.
* Vertex indices (`int`) are integers.
* `std::vector` is `List`; `push_back` appends at the end.
* The input stream is the list of what each extraction `>>` finds next: a
  well-formed number or a malformed token.
* A run of `main` is the list of its observable steps and its exit code; the
  engine is a parameter of the run.  In `main` its calls return; in
  `mainProcess` its computation may also leave the program without returning.
-/

namespace GDelaunay

/-! ## Data model -/

/-- The local `struct RawPoint { float x, y, z, w; }` of `main`. -/
structure RawPoint where
  x : ℚ
  y : ℚ
  z : ℚ
  w : ℚ
  deriving DecidableEq

/-- A real value after a division: `none` stands for the non-finite outcome
of dividing by zero. -/
abbrev GridVal := Option ℚ

/-- The engine's `Point3`, holding the array `_p[3]`. -/
structure Point3 where
  p0 : GridVal
  p1 : GridVal
  p2 : GridVal
  deriving DecidableEq

/-- The three coordinates `_p[0]`, `_p[1]`, `_p[2]` of a grid point. -/
def Point3.coords (p : Point3) : List GridVal := [p.p0, p.p1, p.p2]

/-- The pair `minVal`, `maxVal` maintained by the read loop. -/
structure Extent where
  minVal : ℚ
  maxVal : ℚ
  deriving DecidableEq

/-- The value of `std::numeric_limits<float>::max()`, `(2^24 - 1) * 2^104`. -/
def FLT_MAX : ℚ := 340282346638528859811704183484516925440

/-- A raw point whose spatial coordinates are finite `float` values. -/
def RawPoint.inFloatRange (p : RawPoint) : Prop :=
  (-FLT_MAX ≤ p.x ∧ p.x ≤ FLT_MAX) ∧ (-FLT_MAX ≤ p.y ∧ p.y ≤ FLT_MAX) ∧
    (-FLT_MAX ≤ p.z ∧ p.z ≤ FLT_MAX)

instance (p : RawPoint) : Decidable p.inFloatRange := by
  unfold RawPoint.inFloatRange; infer_instance

/-! ## Grid normaliser -/

/-- Real division `a / b`; dividing by zero has no finite value. -/
def realDiv (a b : ℚ) : GridVal := if b = 0 then none else some (a / b)

/-- The function `scalePoint` (lines 13-20): translate, scale, shift. -/
def scalePoint (gridWidth : ℚ) (minVal maxVal : ℚ) (inVal : ℚ) : GridVal :=
  let inVal₁ := inVal - minVal
  let rangeVal := maxVal - minVal
  let inVal₂ := realDiv ((gridWidth - 3) * inVal₁) rangeVal
  inVal₂.map (fun t => t + 1)

/-! ## Point loader -/

/-- The six conditional updates of `minVal` and `maxVal` in the body of the
read loop (lines 51-56), in source order. -/
def extentStep (e : Extent) (rp : RawPoint) : Extent :=
  let mn₁ := if rp.x < e.minVal then rp.x else e.minVal
  let mn₂ := if rp.y < mn₁ then rp.y else mn₁
  let mn₃ := if rp.z < mn₂ then rp.z else mn₂
  let mx₁ := if rp.x > e.maxVal then rp.x else e.maxVal
  let mx₂ := if rp.y > mx₁ then rp.y else mx₁
  let mx₃ := if rp.z > mx₂ then rp.z else mx₂
  ⟨mn₃, mx₃⟩

/-- The initial extent of lines 44-45: `max()` and `lowest()`. -/
def initExtent : Extent := ⟨FLT_MAX, -FLT_MAX⟩

/-- The extent after the read loop has consumed the quadruples `rawPts`. -/
def loadExtent (rawPts : List RawPoint) : Extent :=
  rawPts.foldl extentStep initExtent

/-! ## Normalisation loop -/

/-- The grid point built from one raw point in the loop body (lines 68-71). -/
def gridPoint (gridSize minVal maxVal : ℚ) (rp : RawPoint) : Point3 :=
  ⟨scalePoint gridSize minVal maxVal rp.x,
   scalePoint gridSize minVal maxVal rp.y,
   scalePoint gridSize minVal maxVal rp.z⟩

/-- The two vectors `pointVec` and `weightVec` handed to `gdelInit`. -/
structure EngineInput where
  pointVec : List Point3
  weightVec : List ℚ
  deriving DecidableEq

/-- The normalisation loop (lines 66-74): one `push_back` on each vector per
raw point. -/
def normalizeLoop (gridSize minVal maxVal : ℚ) (rawPts : List RawPoint) : EngineInput :=
  rawPts.foldl
    (fun acc rp =>
      ⟨acc.pointVec ++ [gridPoint gridSize minVal maxVal rp], acc.weightVec ++ [rp.w]⟩)
    ⟨[], []⟩

/-- Load-then-normalise with grid width `G`: the extent of the read loop is
the one used by the normalisation loop. -/
def normalize (G : ℚ) (rawPts : List RawPoint) : EngineInput :=
  normalizeLoop G (loadExtent rawPts).minVal (loadExtent rawPts).maxVal rawPts

/-- The constant `gridSize = 512.0f` of `main` (line 65). -/
def gridSize : ℚ := 512

/-- The arguments `main` passes to `gdelInit` (line 91) for the points read. -/
def mainEngineInput (rawPts : List RawPoint) : EngineInput :=
  normalize gridSize rawPts

/-- The raw point whose every spatial coordinate `c` is replaced by
`a * c + b`; the weight is kept. -/
def RawPoint.affine (a b : ℚ) (rp : RawPoint) : RawPoint :=
  ⟨a * rp.x + b, a * rp.y + b, a * rp.z + b, rp.w⟩

/-! ## Edge extractor -/

/-- The engine's `Segment`, holding the array `_v[2]` of vertex indices. -/
structure Segment where
  v0 : Int
  v1 : Int
  deriving DecidableEq

/-- The engine's `Tetrahedron`, holding the array `_v[4]` of vertex indices. -/
structure Tetrahedron where
  v0 : Int
  v1 : Int
  v2 : Int
  v3 : Int
  deriving DecidableEq

/-- The entry `_v[i]` of a tetrahedron. -/
def Tetrahedron.vtx (t : Tetrahedron) (i : Fin 4) : Int :=
  match i with
  | 0 => t.v0
  | 1 => t.v1
  | 2 => t.v2
  | 3 => t.v3

/-- Modelled from the spec: the ordering `operator<` of `Segment`
(declared in `Geometry.h`), "defined lexicographically on the canonical
pair". -/
def Segment.lessThan (a b : Segment) : Prop :=
  a.v0 < b.v0 ∨ (a.v0 = b.v0 ∧ a.v1 < b.v1)

instance : DecidableRel Segment.lessThan := fun a b => by
  unfold Segment.lessThan; infer_instance

/-- Modelled from the spec: the equality `operator==` of `Segment`
(declared in `Geometry.h`), equality of the stored pair. -/
def Segment.equal (a b : Segment) : Prop := a.v0 = b.v0 ∧ a.v1 = b.v1

instance : DecidableRel Segment.equal := fun a b => by
  unfold Segment.equal; infer_instance

/-- Modelled from the spec: canonicalisation of a vertex pair (the `Segment`
helper of `Geometry.h`), "so the smaller index is stored first". -/
def Segment.canon (a b : Int) : Segment := if a > b then ⟨b, a⟩ else ⟨a, b⟩

/-- Modelled from the spec: `Tetrahedron::getSegments` (declared in
`Geometry.h`), which fills the array of 6 segments: "enumerate its 6
unordered vertex pairs, canonicalize each (min index first)". -/
def Tetrahedron.getSegments (t : Tetrahedron) : List Segment :=
  [Segment.canon t.v0 t.v1, Segment.canon t.v0 t.v2, Segment.canon t.v0 t.v3,
   Segment.canon t.v1 t.v2, Segment.canon t.v1 t.v3, Segment.canon t.v2 t.v3]

/-- The expansion loop (lines 98-105): the six segments of every
tetrahedron are appended to `segVec`. -/
def expandSegments (tetraVec : List Tetrahedron) : List Segment :=
  tetraVec.foldl (fun segVec tet => segVec ++ tet.getSegments) []

/-- The comparison used to place an element when sorting with `operator<`:
`a` may stand before `b` when `b < a` does not hold. -/
def Segment.notAfter (a b : Segment) : Prop := ¬ b.lessThan a

instance : DecidableRel Segment.notAfter := fun a b => by
  unfold Segment.notAfter; infer_instance

/-- The call `std::sort( segVec.begin(), segVec.end() )` (line 107), realised
as an insertion sort with `operator<`.  The ordering is total on distinct
segments, so every sorting algorithm returns this same list
(`stdSort_unique`). -/
def stdSort (segVec : List Segment) : List Segment :=
  segVec.insertionSort Segment.notAfter

/-- The scan of `std::unique`: `last` is the element most recently kept; an
element equal to it is dropped, any other is kept and becomes `last`. -/
def uniqueFrom (last : Segment) : List Segment → List Segment
  | [] => [last]
  | s :: rest => if last.equal s then uniqueFrom last rest else last :: uniqueFrom s rest

/-- The statement `segVec.erase( std::unique( ... ), segVec.end() )`
(line 108): every run of equal neighbours is reduced to its first element. -/
def stdUnique : List Segment → List Segment
  | [] => []
  | s :: rest => uniqueFrom s rest

/-- The reduction step of lines 107-108: sort, then remove adjacent
duplicates. -/
def reduceSegments (segVec : List Segment) : List Segment :=
  stdUnique (stdSort segVec)

/-- The edge extractor (lines 98-108) on the tetrahedra returned by the
engine. -/
def extractEdges (tetraVec : List Tetrahedron) : List Segment :=
  reduceSegments (expandSegments tetraVec)

/-- A tetrahedron whose four vertex indices are pairwise distinct. -/
def Tetrahedron.distinct (t : Tetrahedron) : Prop :=
  t.v0 ≠ t.v1 ∧ t.v0 ≠ t.v2 ∧ t.v0 ≠ t.v3 ∧ t.v1 ≠ t.v2 ∧ t.v1 ≠ t.v3 ∧ t.v2 ≠ t.v3

instance (t : Tetrahedron) : Decidable t.distinct := by
  unfold Tetrahedron.distinct; infer_instance

/-! ## Reading the input stream -/

/-- What one extraction `inFile >> v` finds next in the stream: a well-formed
number (`some v`) or a malformed token (`none`).  The end of the list is the
end of the stream. -/
abbrev Token := Option ℚ

/-- One extraction `inFile >> v`: on a well-formed number the value is read
and the stream advances; on a malformed or missing token the stream fails. -/
def extract : List Token → Option (ℚ × List Token)
  | some v :: rest => some (v, rest)
  | _ => none

/-- The condition `inFile >> x >> y >> z >> w` of the read loop (line 48):
four extractions in a row, none attempted after one has failed. -/
def readQuad (tokens : List Token) : Option (RawPoint × List Token) :=
  match extract tokens with
  | none => none
  | some (x, t₁) =>
    match extract t₁ with
    | none => none
    | some (y, t₂) =>
      match extract t₂ with
      | none => none
      | some (z, t₃) =>
        match extract t₃ with
        | none => none
        | some (w, t₄) => some (⟨x, y, z, w⟩, t₄)

/-- The variables the read loop leaves behind: `rawPts`, and `minVal` with
`maxVal`. -/
structure Loaded where
  rawPts : List RawPoint
  extent : Extent
  deriving DecidableEq

/-- The read loop (lines 48-57) run for at most `fuel` iterations. -/
def readLoop : Nat → List Token → Loaded → Loaded
  | 0, _, st => st
  | fuel + 1, tokens, st =>
    match readQuad tokens with
    | none => st
    | some (rp, rest) => readLoop fuel rest ⟨st.rawPts ++ [rp], extentStep st.extent rp⟩

/-- The point loader (lines 40-58).  Every iteration consumes four tokens,
so as many iterations as there are tokens always suffice. -/
def load (tokens : List Token) : Loaded :=
  readLoop tokens.length tokens ⟨[], initExtent⟩

/-- The longest prefix of well-formed numbers of a token stream. -/
def numberPrefix : List Token → List ℚ
  | some v :: rest => v :: numberPrefix rest
  | _ => []

/-- The complete quadruples of a sequence of numbers, in order; a trailing
group of fewer than four numbers is left out. -/
def quadruples : List ℚ → List RawPoint
  | x :: y :: z :: w :: rest => ⟨x, y, z, w⟩ :: quadruples rest
  | _ => []

/-- The four numbers of a raw point as they stand in the input stream. -/
def RawPoint.tokens (rp : RawPoint) : List Token :=
  [some rp.x, some rp.y, some rp.z, some rp.w]

/-- The normalisation loop with an arbitrary function in the place of
`scalePoint`. -/
def normalizeLoopWith (scale : ℚ → ℚ → ℚ → ℚ → GridVal) (gridSize minVal maxVal : ℚ)
    (rawPts : List RawPoint) : EngineInput :=
  rawPts.foldl
    (fun acc rp =>
      ⟨acc.pointVec ++ [⟨scale gridSize minVal maxVal rp.x, scale gridSize minVal maxVal rp.y,
          scale gridSize minVal maxVal rp.z⟩], acc.weightVec ++ [rp.w]⟩)
    ⟨[], []⟩

/-! ## Edge writer -/

/-- The text of one iteration of the writer loop (line 120):
`s._v[0] << " " << s._v[1] << "\n"`. -/
def edgeLine (s : Segment) : String :=
  toString s.v0 ++ " " ++ toString s.v1 ++ "\n"

/-- The writer loop (lines 118-121): the text written to `outFile`. -/
def writeEdges (segVec : List Segment) : String :=
  segVec.foldl (fun out s => out ++ edgeLine s) ""

/-! ## The program -/

/-- What the engine leaves behind after `gdelCompute`: the tetrahedra of
`getHostTetra()`, and whether the computation failed inside the engine.
`gdelCompute` returns nothing to `main`, so a failure of a computation that
returns is not visible to it. -/
structure EngineOutcome where
  failed : Bool
  tetra : List Tetrahedron
  deriving DecidableEq

/-- The surroundings of one run: the value of `argc`, the content of the
input file (`none` when it cannot be opened), whether the output file can be
opened, and the engine. -/
structure Env where
  argc : Int
  inFile : Option (List Token)
  outFileOpens : Bool
  engine : EngineInput → EngineOutcome

/-- The observable steps of a run of `main`.  `openInput` and `openOutput`
are the attempts to open the two files (lines 33 and 110); a failed attempt
is followed by the step of its error message. -/
inductive Event where
  | usageMessage
  | openInput
  | cannotOpenInput
  | gdelInit (pointNum : Nat) (input : EngineInput)
  | gdelCompute
  | openOutput
  | cannotOpenOutput
  | writeOutput (text : String)
  | gdelDeInit
  deriving DecidableEq

/-- A finished run: the steps taken, in order, and the value returned. -/
structure Run where
  trace : List Event
  exitCode : Int
  deriving DecidableEq

/-- The function `main` (lines 22-126) in the runs in which the calls of the
engine return to `main`; `mainProcess` below is the program without that
condition. -/
def main (env : Env) : Run :=
  if env.argc ≠ 3 then
    ⟨[Event.usageMessage], 1⟩
  else
    match env.inFile with
    | none => ⟨[Event.openInput, Event.cannotOpenInput], 1⟩
    | some tokens =>
      let ld := load tokens
      let input := normalizeLoop gridSize ld.extent.minVal ld.extent.maxVal ld.rawPts
      let tetraVec := (env.engine input).tetra
      let segVec := extractEdges tetraVec
      let started := [Event.openInput, Event.gdelInit input.pointVec.length input,
        Event.gdelCompute, Event.openOutput]
      if env.outFileOpens = false then
        ⟨started ++ [Event.cannotOpenOutput, Event.gdelDeInit], 1⟩
      else
        ⟨started ++ [Event.writeOutput (writeEdges segVec), Event.gdelDeInit], 0⟩

/-- Modelled from the spec: the contract of the external Triangulation
Engine (`gdelInit`, `gdelCompute`, `getHostTetra`), whose tetrahedra are
"four vertex indices into the GridPoint sequence", fewer than 4 points being
unable to form one: the four indices are pairwise distinct positions of the
point sequence. -/
def EngineContract (engine : EngineInput → EngineOutcome) : Prop :=
  ∀ input, ∀ t ∈ (engine input).tetra,
    t.distinct ∧ ∀ i : Fin 4, 0 ≤ t.vtx i ∧ t.vtx i < input.pointVec.length

/-- The surroundings of one run of the process.  The engine's computation
either returns to `main` with an outcome, or (`none`) fails in a way that
leaves the program from inside `gdelCompute`, by an exception that `main`
does not catch or by ending the process. -/
structure ProcEnv where
  argc : Int
  inFile : Option (List Token)
  outFileOpens : Bool
  engine : EngineInput → Option EngineOutcome

/-- A run of the process: the steps taken, in order, and the value `main`
returned; `none` when `main` did not return. -/
structure ProcRun where
  trace : List Event
  exitCode : Option Int
  deriving DecidableEq

/-- The function `main` (lines 22-126) as a process.  Between `gdelInit`
(line 91) and the two calls of `gdelDeInit` (lines 114 and 124) there is no
handler, so a computation that does not return ends the run where it
stands. -/
def mainProcess (env : ProcEnv) : ProcRun :=
  if env.argc ≠ 3 then
    ⟨[Event.usageMessage], some 1⟩
  else
    match env.inFile with
    | none => ⟨[Event.openInput, Event.cannotOpenInput], some 1⟩
    | some tokens =>
      let ld := load tokens
      let input := normalizeLoop gridSize ld.extent.minVal ld.extent.maxVal ld.rawPts
      match env.engine input with
      | none =>
        ⟨[Event.openInput, Event.gdelInit input.pointVec.length input, Event.gdelCompute],
          none⟩
      | some outcome =>
        let segVec := extractEdges outcome.tetra
        let started := [Event.openInput, Event.gdelInit input.pointVec.length input,
          Event.gdelCompute, Event.openOutput]
        if env.outFileOpens = false then
          ⟨started ++ [Event.cannotOpenOutput, Event.gdelDeInit], some 1⟩
        else
          ⟨started ++ [Event.writeOutput (writeEdges segVec), Event.gdelDeInit], some 0⟩

/-! ## Basic facts about the normaliser and the loader -/

theorem scalePoint_of_ne (G mn mx v : ℚ) (h : mn ≠ mx) :
    scalePoint G mn mx v = some ((G - 3) * (v - mn) / (mx - mn) + 1) := by
  have h0 : mx - mn ≠ 0 := fun h0 => h (by linarith)
  simp [scalePoint, realDiv, h0]

theorem scalePoint_of_eq (G m v : ℚ) : scalePoint G m m v = none := by
  simp [scalePoint, realDiv]

theorem normalizeLoop_aux (G mn mx : ℚ) (rawPts : List RawPoint) (acc : EngineInput) :
    rawPts.foldl
      (fun acc rp =>
        (⟨acc.pointVec ++ [gridPoint G mn mx rp], acc.weightVec ++ [rp.w]⟩ : EngineInput)) acc
      = ⟨acc.pointVec ++ rawPts.map (gridPoint G mn mx),
         acc.weightVec ++ rawPts.map RawPoint.w⟩ := by
  induction rawPts generalizing acc with
  | nil => simp
  | cons rp rest ih => simp [ih]

theorem normalizeLoop_eq_map (G mn mx : ℚ) (rawPts : List RawPoint) :
    normalizeLoop G mn mx rawPts
      = ⟨rawPts.map (gridPoint G mn mx), rawPts.map RawPoint.w⟩ := by
  simp [normalizeLoop, normalizeLoop_aux]

/-- One step of the read loop in closed form: joint minimum and maximum. -/
theorem extentStep_eq (e : Extent) (rp : RawPoint) :
    extentStep e rp =
      ⟨min (min (min e.minVal rp.x) rp.y) rp.z, max (max (max e.maxVal rp.x) rp.y) rp.z⟩ := by
  have hmin : ∀ c m : ℚ, (if c < m then c else m) = min m c := by
    intro c m
    by_cases h : c < m
    · simp [h, min_eq_right (le_of_lt h)]
    · simp [h, min_eq_left (not_lt.mp h)]
  have hmax : ∀ c m : ℚ, (if c > m then c else m) = max m c := by
    intro c m
    by_cases h : c > m
    · simp [h, max_eq_right (le_of_lt h)]
    · simp [h, max_eq_left (not_lt.mp h)]
  simp only [extentStep, hmin, hmax]

theorem foldl_extentStep_le (rawPts : List RawPoint) (e : Extent) :
    (rawPts.foldl extentStep e).minVal ≤ e.minVal ∧
      e.maxVal ≤ (rawPts.foldl extentStep e).maxVal := by
  induction rawPts generalizing e with
  | nil => simp
  | cons rp rest ih =>
    have h := ih (extentStep e rp)
    rw [extentStep_eq] at h
    simp only [List.foldl_cons, extentStep_eq]
    refine ⟨le_trans h.1 ?_, le_trans ?_ h.2⟩
    · exact le_trans (min_le_left _ _) (le_trans (min_le_left _ _) (min_le_left _ _))
    · exact le_trans (le_max_left _ _) (le_trans (le_max_left _ _) (le_max_left _ _))

/-- Every spatial coordinate consumed by the read loop lies within the
extent it ends with. -/
theorem foldl_extentStep_bounds (rawPts : List RawPoint) (e : Extent) :
    ∀ rp ∈ rawPts,
      ((rawPts.foldl extentStep e).minVal ≤ rp.x ∧ rp.x ≤ (rawPts.foldl extentStep e).maxVal) ∧
      ((rawPts.foldl extentStep e).minVal ≤ rp.y ∧ rp.y ≤ (rawPts.foldl extentStep e).maxVal) ∧
      ((rawPts.foldl extentStep e).minVal ≤ rp.z ∧ rp.z ≤ (rawPts.foldl extentStep e).maxVal) := by
  induction rawPts generalizing e with
  | nil => intro rp h; cases h
  | cons r rest ih =>
    intro rp hrp
    rcases List.mem_cons.mp hrp with h | h
    · subst h
      have h := foldl_extentStep_le rest (extentStep e rp)
      rw [extentStep_eq] at h
      simp only [List.foldl_cons, extentStep_eq]
      obtain ⟨h1, h2⟩ := h
      simp only at h1 h2
      refine ⟨⟨le_trans h1 ?_, le_trans ?_ h2⟩, ⟨le_trans h1 ?_, le_trans ?_ h2⟩,
        ⟨le_trans h1 ?_, le_trans ?_ h2⟩⟩
      · exact le_trans (min_le_left _ _) (le_trans (min_le_left _ _) (min_le_right _ _))
      · exact le_trans (le_max_right _ _) (le_trans (le_max_left _ _) (le_max_left _ _))
      · exact le_trans (min_le_left _ _) (min_le_right _ _)
      · exact le_trans (le_max_right _ _) (le_max_left _ _)
      · exact min_le_right _ _
      · exact le_max_right _ _
    · exact ih (extentStep e r) rp h

theorem scalePoint_in_grid (G mn mx v : ℚ) (hG : 4 ≤ G) (hlt : mn < mx)
    (h1 : mn ≤ v) (h2 : v ≤ mx) :
    ∃ q, scalePoint G mn mx v = some q ∧ 1 ≤ q ∧ q ≤ G - 2 := by
  refine ⟨_, scalePoint_of_ne G mn mx v (ne_of_lt hlt), ?_, ?_⟩
  · have hr : 0 < mx - mn := by linarith
    have : 0 ≤ (G - 3) * (v - mn) / (mx - mn) :=
      div_nonneg (mul_nonneg (by linarith) (by linarith)) (le_of_lt hr)
    linarith
  · have hr : 0 < mx - mn := by linarith
    have : (G - 3) * (v - mn) / (mx - mn) ≤ G - 3 := by
      rw [div_le_iff₀ hr]
      have : (G - 3) * (v - mn) ≤ (G - 3) * (mx - mn) :=
        mul_le_mul_of_nonneg_left (by linarith) (by linarith)
      linarith
    linarith

theorem affine_min (a b : ℚ) (ha : 0 < a) (x y : ℚ) :
    min (a * x + b) (a * y + b) = a * min x y + b := by
  rcases le_total x y with h | h
  · rw [min_eq_left h, min_eq_left]; nlinarith
  · rw [min_eq_right h, min_eq_right]; nlinarith

theorem affine_max (a b : ℚ) (ha : 0 < a) (x y : ℚ) :
    max (a * x + b) (a * y + b) = a * max x y + b := by
  rcases le_total x y with h | h
  · rw [max_eq_right h, max_eq_right]; nlinarith
  · rw [max_eq_left h, max_eq_left]; nlinarith

/-- The read loop commutes with a uniform similarity of the coordinates. -/
theorem foldl_extentStep_affine (a b : ℚ) (ha : 0 < a) (rawPts : List RawPoint) (e : Extent) :
    (rawPts.map (RawPoint.affine a b)).foldl extentStep ⟨a * e.minVal + b, a * e.maxVal + b⟩
      = ⟨a * (rawPts.foldl extentStep e).minVal + b,
         a * (rawPts.foldl extentStep e).maxVal + b⟩ := by
  induction rawPts generalizing e with
  | nil => simp
  | cons rp rest ih =>
    have h := ih (extentStep e rp)
    simp only [List.map_cons, List.foldl_cons]
    rw [← h]
    congr 1
    simp only [extentStep_eq, RawPoint.affine, affine_min a b ha, affine_max a b ha]

/-- After a first point of `float` range the initial limits have no trace
left in the extent. -/
theorem extentStep_init (rp : RawPoint) (h : rp.inFloatRange) :
    extentStep initExtent rp = ⟨min (min rp.x rp.y) rp.z, max (max rp.x rp.y) rp.z⟩ := by
  obtain ⟨⟨hx1, hx2⟩, _, _⟩ := h
  rw [extentStep_eq]
  simp only [initExtent]
  rw [min_eq_right hx2, max_eq_right hx1]

theorem loadExtent_affine (a b : ℚ) (ha : 0 < a) (rawPts : List RawPoint)
    (hne : rawPts ≠ [])
    (hr : ∀ rp ∈ rawPts, rp.inFloatRange)
    (hr2 : ∀ rp ∈ rawPts, (rp.affine a b).inFloatRange) :
    loadExtent (rawPts.map (RawPoint.affine a b))
      = ⟨a * (loadExtent rawPts).minVal + b, a * (loadExtent rawPts).maxVal + b⟩ := by
  cases rawPts with
  | nil => exact absurd rfl hne
  | cons rp rest =>
    have h1 := extentStep_init rp (hr rp (List.mem_cons_self _ _))
    have h2 := extentStep_init (rp.affine a b) (hr2 rp (List.mem_cons_self _ _))
    simp only [loadExtent, List.map_cons, List.foldl_cons]
    rw [← foldl_extentStep_affine a b ha rest (extentStep initExtent rp), h2, h1]
    simp only [RawPoint.affine, affine_min a b ha, affine_max a b ha]

theorem scalePoint_affine (G a b : ℚ) (ha : 0 < a) (mn mx v : ℚ) :
    scalePoint G (a * mn + b) (a * mx + b) (a * v + b) = scalePoint G mn mx v := by
  by_cases h : mn = mx
  · subst h
    rw [scalePoint_of_eq, scalePoint_of_eq]
  · have h2 : a * mn + b ≠ a * mx + b := by
      intro h3
      apply h
      have : a * (mn - mx) = 0 := by linarith
      rcases mul_eq_zero.mp this with h4 | h4
      · exact absurd h4 (ne_of_gt ha)
      · linarith
    rw [scalePoint_of_ne _ _ _ _ h, scalePoint_of_ne _ _ _ _ h2]
    have h0 : mx - mn ≠ 0 := fun h0 => h (by linarith)
    have ha0 : a ≠ 0 := ne_of_gt ha
    congr 2
    have e1 : a * v + b - (a * mn + b) = a * (v - mn) := by ring
    have e2 : a * mx + b - (a * mn + b) = a * (mx - mn) := by ring
    rw [e1, e2]
    field_simp
    ring

/-! ## Facts about the segment ordering -/

theorem Segment.equal_iff (a b : Segment) : a.equal b ↔ a = b := by
  rcases a with ⟨a0, a1⟩
  rcases b with ⟨b0, b1⟩
  simp [Segment.equal]

theorem Segment.lessThan_irrefl (a : Segment) : ¬ a.lessThan a := by
  simp only [Segment.lessThan]; omega

theorem Segment.lessThan_trans {a b c : Segment} (h1 : a.lessThan b) (h2 : b.lessThan c) :
    a.lessThan c := by
  simp only [Segment.lessThan] at *; omega

theorem Segment.lessThan_of_notAfter_of_ne {a b : Segment} (h1 : a.notAfter b) (h2 : a ≠ b) :
    a.lessThan b := by
  rcases a with ⟨a0, a1⟩
  rcases b with ⟨b0, b1⟩
  simp only [Segment.notAfter, Segment.lessThan, ne_eq, Segment.mk.injEq] at *
  omega

theorem Segment.notAfter_of_lessThan {a b : Segment} (h : a.lessThan b) : a.notAfter b := by
  simp only [Segment.notAfter, Segment.lessThan] at *; omega

theorem Segment.lessThan_of_lessThan_of_notAfter {a b c : Segment} (h1 : a.lessThan b)
    (h2 : b.notAfter c) : a.lessThan c := by
  simp only [Segment.notAfter, Segment.lessThan] at *; omega

instance : IsTotal Segment Segment.notAfter :=
  ⟨fun a b => by simp only [Segment.notAfter, Segment.lessThan]; omega⟩

instance : IsTrans Segment Segment.notAfter :=
  ⟨fun a b c h1 h2 => by simp only [Segment.notAfter, Segment.lessThan] at *; omega⟩

instance : IsAntisymm Segment Segment.notAfter :=
  ⟨fun a b h1 h2 => by
    rcases a with ⟨a0, a1⟩
    rcases b with ⟨b0, b1⟩
    simp only [Segment.notAfter, Segment.lessThan, Segment.mk.injEq] at *
    omega⟩

instance : IsAntisymm Segment Segment.lessThan :=
  ⟨fun a _ h1 h2 => absurd (Segment.lessThan_trans h1 h2) (Segment.lessThan_irrefl a)⟩

instance : IsIrrefl Segment Segment.lessThan := ⟨Segment.lessThan_irrefl⟩

instance : IsTrans Segment Segment.lessThan := ⟨fun _ _ _ => Segment.lessThan_trans⟩

/-! ## Facts about expansion, sorting and `unique` -/

theorem expandSegments_aux (tetraVec : List Tetrahedron) (acc : List Segment) :
    tetraVec.foldl (fun segVec tet => segVec ++ tet.getSegments) acc
      = acc ++ tetraVec.flatMap Tetrahedron.getSegments := by
  induction tetraVec generalizing acc with
  | nil => simp
  | cons t rest ih => simp [ih]

theorem expandSegments_eq (tetraVec : List Tetrahedron) :
    expandSegments tetraVec = tetraVec.flatMap Tetrahedron.getSegments := by
  simp [expandSegments, expandSegments_aux]

theorem mem_expandSegments (tetraVec : List Tetrahedron) (e : Segment) :
    e ∈ expandSegments tetraVec ↔ ∃ t ∈ tetraVec, e ∈ t.getSegments := by
  rw [expandSegments_eq, List.mem_flatMap]

theorem stdSort_perm (l : List Segment) : (stdSort l).Perm l :=
  List.perm_insertionSort _ l

theorem stdSort_sorted (l : List Segment) : (stdSort l).Sorted Segment.notAfter :=
  List.sorted_insertionSort _ l

/-- Any sorted rearrangement of the input is the list `stdSort` returns: the
result of the call to `std::sort` does not depend on the algorithm. -/
theorem stdSort_unique (l l2 : List Segment) (hp : l2.Perm l)
    (hs : l2.Sorted Segment.notAfter) : l2 = stdSort l :=
  List.eq_of_perm_of_sorted (hp.trans (stdSort_perm l).symm) hs (stdSort_sorted l)

theorem mem_stdSort (l : List Segment) (e : Segment) : e ∈ stdSort l ↔ e ∈ l :=
  (stdSort_perm l).mem_iff

theorem mem_uniqueFrom (l : List Segment) (a e : Segment) :
    e ∈ uniqueFrom a l ↔ e = a ∨ e ∈ l := by
  induction l generalizing a with
  | nil => simp [uniqueFrom]
  | cons s rest ih =>
    simp only [uniqueFrom]
    by_cases h : a.equal s
    · have hs : a = s := (Segment.equal_iff a s).mp h
      subst hs
      simp only [h, if_true, ih, List.mem_cons]
      tauto
    · simp only [h, if_false, List.mem_cons, ih]

theorem mem_stdUnique (l : List Segment) (e : Segment) : e ∈ stdUnique l ↔ e ∈ l := by
  cases l with
  | nil => simp [stdUnique]
  | cons s rest => simp [stdUnique, mem_uniqueFrom]

theorem mem_reduceSegments (l : List Segment) (e : Segment) :
    e ∈ reduceSegments l ↔ e ∈ l := by
  rw [reduceSegments, mem_stdUnique, mem_stdSort]

theorem uniqueFrom_strict (l : List Segment) (a : Segment)
    (h : (a :: l).Sorted Segment.notAfter) :
    (uniqueFrom a l).Pairwise Segment.lessThan := by
  induction l generalizing a with
  | nil => simp [uniqueFrom]
  | cons s rest ih =>
    simp only [uniqueFrom]
    have hall := List.rel_of_sorted_cons h
    have hs : (s :: rest).Sorted Segment.notAfter := h.of_cons
    by_cases he : a.equal s
    · have has : a = s := (Segment.equal_iff a s).mp he
      subst has
      simp only [he, if_true]
      exact ih a hs
    · simp only [he, if_false]
      have hne : a ≠ s := fun hh => he ((Segment.equal_iff a s).mpr hh)
      have hlt : a.lessThan s :=
        Segment.lessThan_of_notAfter_of_ne (hall s (List.mem_cons_self _ _)) hne
      refine List.Pairwise.cons ?_ (ih s hs)
      intro x hx
      rcases (mem_uniqueFrom rest s x).mp hx with rfl | hx2
      · exact hlt
      · exact Segment.lessThan_of_lessThan_of_notAfter hlt (List.rel_of_sorted_cons hs x hx2)

theorem reduceSegments_strict (l : List Segment) :
    (reduceSegments l).Pairwise Segment.lessThan := by
  unfold reduceSegments
  have h := stdSort_sorted l
  cases hl : stdSort l with
  | nil => simp [stdUnique]
  | cons s rest =>
    rw [hl] at h
    exact uniqueFrom_strict rest s h

theorem uniqueFrom_of_strict (l : List Segment) (a : Segment)
    (h : (a :: l).Pairwise Segment.lessThan) : uniqueFrom a l = a :: l := by
  induction l generalizing a with
  | nil => simp [uniqueFrom]
  | cons s rest ih =>
    have hlt : a.lessThan s := List.rel_of_pairwise_cons h (List.mem_cons_self _ _)
    have hne : ¬ a.equal s := by
      intro he
      rw [(Segment.equal_iff a s).mp he] at hlt
      exact Segment.lessThan_irrefl s hlt
    simp only [uniqueFrom, hne, if_false, ih s h.of_cons]

theorem reduceSegments_of_strict (l : List Segment) (h : l.Pairwise Segment.lessThan) :
    reduceSegments l = l := by
  have hs : l.Sorted Segment.notAfter := h.imp (fun hab => Segment.notAfter_of_lessThan hab)
  have e1 : stdSort l = l := List.Sorted.insertionSort_eq hs
  rw [reduceSegments, e1]
  cases l with
  | nil => simp [stdUnique]
  | cons s rest => exact uniqueFrom_of_strict rest s h

theorem strict_nodup (l : List Segment) (h : l.Pairwise Segment.lessThan) : l.Nodup :=
  List.Sorted.nodup h

/-- Two strictly ascending lists with the same elements are the same list. -/
theorem strict_ext (l1 l2 : List Segment) (h1 : l1.Pairwise Segment.lessThan)
    (h2 : l2.Pairwise Segment.lessThan) (hm : ∀ e, e ∈ l1 ↔ e ∈ l2) : l1 = l2 :=
  List.eq_of_perm_of_sorted
    ((List.perm_ext_iff_of_nodup (strict_nodup l1 h1) (strict_nodup l2 h2)).mpr hm) h1 h2

theorem Segment.canon_eq (a b : Int) : Segment.canon a b = ⟨min a b, max a b⟩ := by
  by_cases h : a > b
  · simp [Segment.canon, h, min_eq_right (le_of_lt h), max_eq_left (le_of_lt h)]
  · simp [Segment.canon, h, min_eq_left (not_lt.mp h), max_eq_right (not_lt.mp h)]

theorem Segment.canon_le (a b : Int) : (Segment.canon a b).v0 ≤ (Segment.canon a b).v1 := by
  rw [Segment.canon_eq]; exact le_trans (min_le_left a b) (le_max_left a b)

theorem Segment.canon_lt (a b : Int) (h : a ≠ b) :
    (Segment.canon a b).v0 < (Segment.canon a b).v1 := by
  unfold Segment.canon
  split_ifs with hab
  · exact hab
  · simp only; omega

theorem mem_getSegments_iff (t : Tetrahedron) (e : Segment) :
    e ∈ t.getSegments ↔
      ∃ i j : Fin 4, i < j ∧ e = ⟨min (t.vtx i) (t.vtx j), max (t.vtx i) (t.vtx j)⟩ := by
  simp only [Tetrahedron.getSegments, Segment.canon_eq, List.mem_cons, List.mem_singleton,
    List.not_mem_nil, or_false]
  constructor
  · rintro (h | h | h | h | h | h)
    · exact ⟨0, 1, by decide, h⟩
    · exact ⟨0, 2, by decide, h⟩
    · exact ⟨0, 3, by decide, h⟩
    · exact ⟨1, 2, by decide, h⟩
    · exact ⟨1, 3, by decide, h⟩
    · exact ⟨2, 3, by decide, h⟩
  · rintro ⟨i, j, hij, h⟩
    fin_cases i <;> fin_cases j <;> first
      | exact absurd hij (by decide)
      | (simp only [Tetrahedron.vtx] at h; simp [h])

theorem getSegments_le (t : Tetrahedron) : ∀ e ∈ t.getSegments, e.v0 ≤ e.v1 := by
  intro e he
  simp only [Tetrahedron.getSegments, List.mem_cons, List.mem_singleton, List.not_mem_nil,
    or_false] at he
  rcases he with rfl | rfl | rfl | rfl | rfl | rfl <;> exact Segment.canon_le _ _

theorem getSegments_lt (t : Tetrahedron) (hd : t.distinct) :
    ∀ e ∈ t.getSegments, e.v0 < e.v1 := by
  intro e he
  obtain ⟨h01, h02, h03, h12, h13, h23⟩ := hd
  simp only [Tetrahedron.getSegments, List.mem_cons, List.mem_singleton, List.not_mem_nil,
    or_false] at he
  rcases he with rfl | rfl | rfl | rfl | rfl | rfl
  · exact Segment.canon_lt _ _ h01
  · exact Segment.canon_lt _ _ h02
  · exact Segment.canon_lt _ _ h03
  · exact Segment.canon_lt _ _ h12
  · exact Segment.canon_lt _ _ h13
  · exact Segment.canon_lt _ _ h23

theorem getSegments_nodup (t : Tetrahedron) (hd : t.distinct) : t.getSegments.Nodup := by
  rcases t with ⟨a, b, c, d⟩
  obtain ⟨h01, h02, h03, h12, h13, h23⟩ := hd
  simp only at h01 h02 h03 h12 h13 h23
  simp only [Tetrahedron.getSegments, Segment.canon, List.nodup_cons, List.mem_cons,
    List.mem_singleton, List.not_mem_nil, or_false, List.nodup_nil, and_true, not_or]
  refine ⟨⟨?_, ?_, ?_, ?_, ?_⟩, ⟨?_, ?_, ?_, ?_⟩, ⟨?_, ?_, ?_⟩, ⟨?_, ?_⟩, ?_, not_false⟩ <;>
    (split_ifs <;> simp only [Segment.mk.injEq] <;> omega)

theorem mem_getSegments_pairs (t : Tetrahedron) (hd : t.distinct) (e : Segment) :
    e ∈ t.getSegments ↔
      ∃ x y, x ∈ [t.v0, t.v1, t.v2, t.v3] ∧ y ∈ [t.v0, t.v1, t.v2, t.v3] ∧ x < y ∧
        e = ⟨x, y⟩ := by
  rcases t with ⟨a, b, c, d⟩
  obtain ⟨h01, h02, h03, h12, h13, h23⟩ := hd
  simp only at h01 h02 h03 h12 h13 h23
  have key : ∀ p q : Int, p < q →
      (Segment.canon p q = ⟨p, q⟩ ∧ Segment.canon q p = ⟨p, q⟩) := by
    intro p q hpq
    constructor
    · simp [Segment.canon, not_lt.mpr (le_of_lt hpq)]
    · simp [Segment.canon, hpq]
  have pick : ∀ p q : Int, p ≠ q → ∃ x y, (x = p ∧ y = q ∨ x = q ∧ y = p) ∧ x < y ∧
      Segment.canon p q = ⟨x, y⟩ := by
    intro p q hpq
    by_cases h : p > q
    · exact ⟨q, p, Or.inr ⟨rfl, rfl⟩, h, by simp [Segment.canon, h]⟩
    · exact ⟨p, q, Or.inl ⟨rfl, rfl⟩, by omega, by simp [Segment.canon, h]⟩
  simp only [Tetrahedron.getSegments, List.mem_cons, List.mem_singleton, List.not_mem_nil,
    or_false]
  constructor
  · intro h
    have fin : ∀ p q : Int, p ≠ q → (p = a ∨ p = b ∨ p = c ∨ p = d) →
        (q = a ∨ q = b ∨ q = c ∨ q = d) → e = Segment.canon p q →
        ∃ x y, (x = a ∨ x = b ∨ x = c ∨ x = d) ∧ (y = a ∨ y = b ∨ y = c ∨ y = d) ∧ x < y ∧
          e = ⟨x, y⟩ := by
      intro p q hpq hp hq he
      obtain ⟨x, y, hxy, hlt, hc⟩ := pick p q hpq
      rcases hxy with ⟨rfl, rfl⟩ | ⟨rfl, rfl⟩
      · exact ⟨x, y, hp, hq, hlt, he.trans hc⟩
      · exact ⟨x, y, hq, hp, hlt, he.trans hc⟩
    rcases h with h | h | h | h | h | h
    · exact fin a b h01 (by simp) (by simp) h
    · exact fin a c h02 (by simp) (by simp) h
    · exact fin a d h03 (by simp) (by simp) h
    · exact fin b c h12 (by simp) (by simp) h
    · exact fin b d h13 (by simp) (by simp) h
    · exact fin c d h23 (by simp) (by simp) h
  · rintro ⟨x, y, hx, hy, hxy, rfl⟩
    rcases hx with rfl | rfl | rfl | rfl <;> rcases hy with rfl | rfl | rfl | rfl <;>
      first
        | exact absurd hxy (lt_irrefl _)
        | (have hk := key _ _ hxy; simp [hk.1, hk.2])

theorem mem_extractEdges (tetraVec : List Tetrahedron) (e : Segment) :
    e ∈ extractEdges tetraVec ↔ ∃ t ∈ tetraVec, e ∈ t.getSegments := by
  rw [extractEdges, mem_reduceSegments, mem_expandSegments]

/-! ## Facts about the read loop -/

/-- With at least as many iterations allowed as there are tokens, the read
loop appends the complete quadruples of the number prefix and folds them into
the extent. -/
theorem readLoop_spec (fuel : Nat) (tokens : List Token) (st : Loaded)
    (h : tokens.length ≤ fuel) :
    readLoop fuel tokens st
      = ⟨st.rawPts ++ quadruples (numberPrefix tokens),
         (quadruples (numberPrefix tokens)).foldl extentStep st.extent⟩ := by
  induction fuel generalizing tokens st with
  | zero =>
    have h0 : tokens = [] := List.length_eq_zero.mp (Nat.le_zero.mp h)
    subst h0
    simp [readLoop, numberPrefix, quadruples]
  | succ n ih =>
    rcases tokens with _ | ⟨_ | x, _ | ⟨_ | y, _ | ⟨_ | z, _ | ⟨_ | w, rest⟩⟩⟩⟩ <;>
      try (simp [readLoop, readQuad, extract, numberPrefix, quadruples]; done)
    have hr : rest.length ≤ n := by
      simp only [List.length_cons] at h
      omega
    simp only [readLoop, readQuad, extract, numberPrefix, quadruples]
    rw [ih rest _ hr]
    simp

theorem load_spec (tokens : List Token) :
    load tokens
      = ⟨quadruples (numberPrefix tokens), loadExtent (quadruples (numberPrefix tokens))⟩ := by
  rw [load, readLoop_spec _ _ _ (le_refl _)]
  simp [loadExtent]

theorem load_extent (tokens : List Token) :
    (load tokens).extent = loadExtent (load tokens).rawPts := by
  rw [load_spec]

/-- More iterations than tokens change nothing: the loop has stopped. -/
theorem readLoop_fuel (fuel : Nat) (tokens : List Token) (h : tokens.length ≤ fuel) :
    readLoop fuel tokens ⟨[], initExtent⟩ = load tokens := by
  rw [load, readLoop_spec _ _ _ h, readLoop_spec _ _ _ (le_refl _)]

theorem normalizeLoopWith_scalePoint (G mn mx : ℚ) (rawPts : List RawPoint) :
    normalizeLoopWith scalePoint G mn mx rawPts = normalizeLoop G mn mx rawPts := rfl

theorem foldl_extentStep_attained (rawPts : List RawPoint) (e : Extent) :
    ((rawPts.foldl extentStep e).minVal = e.minVal ∨
        ∃ rp ∈ rawPts, (rawPts.foldl extentStep e).minVal = rp.x ∨
          (rawPts.foldl extentStep e).minVal = rp.y ∨
          (rawPts.foldl extentStep e).minVal = rp.z) ∧
      ((rawPts.foldl extentStep e).maxVal = e.maxVal ∨
        ∃ rp ∈ rawPts, (rawPts.foldl extentStep e).maxVal = rp.x ∨
          (rawPts.foldl extentStep e).maxVal = rp.y ∨
          (rawPts.foldl extentStep e).maxVal = rp.z) := by
  induction rawPts generalizing e with
  | nil => simp
  | cons rp rest ih =>
    obtain ⟨h1, h2⟩ := ih (extentStep e rp)
    simp only [List.foldl_cons]
    constructor
    · rcases h1 with h | ⟨r, hr, h⟩
      · rw [h, extentStep_eq]
        simp only
        rcases min_choice (min (min e.minVal rp.x) rp.y) rp.z with hz | hz
        · rcases min_choice (min e.minVal rp.x) rp.y with hy | hy
          · rcases min_choice e.minVal rp.x with hx | hx
            · left; rw [hz, hy, hx]
            · right; exact ⟨rp, List.mem_cons_self _ _, Or.inl (by rw [hz, hy, hx])⟩
          · right; exact ⟨rp, List.mem_cons_self _ _, Or.inr (Or.inl (by rw [hz, hy]))⟩
        · right; exact ⟨rp, List.mem_cons_self _ _, Or.inr (Or.inr hz)⟩
      · right; exact ⟨r, List.mem_cons_of_mem _ hr, h⟩
    · rcases h2 with h | ⟨r, hr, h⟩
      · rw [h, extentStep_eq]
        simp only
        rcases max_choice (max (max e.maxVal rp.x) rp.y) rp.z with hz | hz
        · rcases max_choice (max e.maxVal rp.x) rp.y with hy | hy
          · rcases max_choice e.maxVal rp.x with hx | hx
            · left; rw [hz, hy, hx]
            · right; exact ⟨rp, List.mem_cons_self _ _, Or.inl (by rw [hz, hy, hx])⟩
          · right; exact ⟨rp, List.mem_cons_self _ _, Or.inr (Or.inl (by rw [hz, hy]))⟩
        · right; exact ⟨rp, List.mem_cons_self _ _, Or.inr (Or.inr hz)⟩
      · right; exact ⟨r, List.mem_cons_of_mem _ hr, h⟩

theorem numberPrefix_tokens (rawPts : List RawPoint) (tail : List ℚ) (rest : List Token)
    (hrest : rest = [] ∨ ∃ r, rest = none :: r) :
    numberPrefix (rawPts.flatMap RawPoint.tokens ++ tail.map some ++ rest)
      = rawPts.flatMap (fun rp => [rp.x, rp.y, rp.z, rp.w]) ++ tail := by
  induction rawPts with
  | nil =>
    simp only [List.flatMap_nil, List.nil_append]
    induction tail with
    | nil =>
      rcases hrest with rfl | ⟨r, rfl⟩ <;> simp [numberPrefix]
    | cons v vs ih => simp [numberPrefix, ih]
  | cons rp rps ih =>
    have e : (rp :: rps).flatMap RawPoint.tokens ++ tail.map some ++ rest
        = some rp.x :: some rp.y :: some rp.z :: some rp.w ::
            (rps.flatMap RawPoint.tokens ++ tail.map some ++ rest) := by
      simp [List.flatMap_cons, RawPoint.tokens]
    rw [e]
    simp only [numberPrefix]
    rw [ih]
    simp [List.flatMap_cons]

theorem quadruples_flatMap (rawPts : List RawPoint) (tail : List ℚ) (h : tail.length < 4) :
    quadruples (rawPts.flatMap (fun rp => [rp.x, rp.y, rp.z, rp.w]) ++ tail) = rawPts := by
  induction rawPts with
  | nil =>
    rcases tail with _ | ⟨a, _ | ⟨b, _ | ⟨c, _ | ⟨d, rest⟩⟩⟩⟩ <;>
      first
        | (simp only [List.length_cons] at h; omega)
        | simp [quadruples]
  | cons rp rps ih =>
    have e : (rp :: rps).flatMap (fun rp => [rp.x, rp.y, rp.z, rp.w]) ++ tail
        = rp.x :: rp.y :: rp.z :: rp.w ::
            (rps.flatMap (fun rp => [rp.x, rp.y, rp.z, rp.w]) ++ tail) := by
      simp [List.flatMap_cons]
    rw [e]
    simp only [quadruples]
    rw [ih]

/-! ## Facts about `main` -/

theorem main_wrong_argc (env : Env) (h : env.argc ≠ 3) :
    main env = ⟨[Event.usageMessage], 1⟩ := by
  simp [main, h]

theorem main_no_input (env : Env) (h : env.argc = 3) (hin : env.inFile = none) :
    main env = ⟨[Event.openInput, Event.cannotOpenInput], 1⟩ := by
  simp [main, h, hin]

theorem main_input_eq (tokens : List Token) :
    normalizeLoop gridSize (load tokens).extent.minVal (load tokens).extent.maxVal
      (load tokens).rawPts = mainEngineInput (load tokens).rawPts := by
  rw [mainEngineInput, normalize, ← load_extent]

theorem main_no_output (env : Env) (tokens : List Token) (h : env.argc = 3)
    (hin : env.inFile = some tokens) (hout : env.outFileOpens = false) :
    main env =
      ⟨[Event.openInput,
        Event.gdelInit (mainEngineInput (load tokens).rawPts).pointVec.length
          (mainEngineInput (load tokens).rawPts),
        Event.gdelCompute, Event.openOutput, Event.cannotOpenOutput, Event.gdelDeInit], 1⟩ := by
  simp [main, h, hin, hout, main_input_eq]

theorem main_success (env : Env) (tokens : List Token) (h : env.argc = 3)
    (hin : env.inFile = some tokens) (hout : env.outFileOpens = true) :
    main env =
      ⟨[Event.openInput,
        Event.gdelInit (mainEngineInput (load tokens).rawPts).pointVec.length
          (mainEngineInput (load tokens).rawPts),
        Event.gdelCompute, Event.openOutput,
        Event.writeOutput (writeEdges (extractEdges
          (env.engine (mainEngineInput (load tokens).rawPts)).tetra)),
        Event.gdelDeInit], 0⟩ := by
  simp [main, h, hin, hout, main_input_eq]

/-- The four shapes a run of `main` can have. -/
theorem main_cases (env : Env) :
    (env.argc ≠ 3 ∧ main env = ⟨[Event.usageMessage], 1⟩) ∨
    (env.argc = 3 ∧ env.inFile = none ∧
      main env = ⟨[Event.openInput, Event.cannotOpenInput], 1⟩) ∨
    (∃ tokens, env.argc = 3 ∧ env.inFile = some tokens ∧ env.outFileOpens = false ∧
      main env =
        ⟨[Event.openInput,
          Event.gdelInit (mainEngineInput (load tokens).rawPts).pointVec.length
            (mainEngineInput (load tokens).rawPts),
          Event.gdelCompute, Event.openOutput, Event.cannotOpenOutput, Event.gdelDeInit], 1⟩) ∨
    (∃ tokens, env.argc = 3 ∧ env.inFile = some tokens ∧ env.outFileOpens = true ∧
      main env =
        ⟨[Event.openInput,
          Event.gdelInit (mainEngineInput (load tokens).rawPts).pointVec.length
            (mainEngineInput (load tokens).rawPts),
          Event.gdelCompute, Event.openOutput,
          Event.writeOutput (writeEdges (extractEdges
            (env.engine (mainEngineInput (load tokens).rawPts)).tetra)),
          Event.gdelDeInit], 0⟩) := by
  by_cases h : env.argc = 3
  · cases hin : env.inFile with
    | none => exact Or.inr (Or.inl ⟨h, rfl, main_no_input env h hin⟩)
    | some tokens =>
      cases hout : env.outFileOpens with
      | false =>
        exact Or.inr (Or.inr (Or.inl ⟨tokens, h, rfl, rfl, main_no_output env tokens h hin hout⟩))
      | true =>
        exact Or.inr (Or.inr (Or.inr ⟨tokens, h, rfl, rfl, main_success env tokens h hin hout⟩))
  · exact Or.inl ⟨h, main_wrong_argc env h⟩

/-! ## Facts about `mainProcess` -/

/-- With an engine whose computation always returns, the process is the run
of `main`. -/
theorem mainProcess_returning (env : Env) :
    mainProcess ⟨env.argc, env.inFile, env.outFileOpens, fun input => some (env.engine input)⟩
      = ⟨(main env).trace, some (main env).exitCode⟩ := by
  rcases main_cases env with ⟨h1, hm⟩ | ⟨h1, h2, hm⟩ | ⟨tokens, h1, h2, h3, hm⟩ |
      ⟨tokens, h1, h2, h3, hm⟩
  · rw [hm]; simp [mainProcess, h1]
  · rw [hm]; simp [mainProcess, h1, h2]
  · rw [hm]; simp [mainProcess, h1, h2, h3, main_input_eq]
  · rw [hm]; simp [mainProcess, h1, h2, h3, main_input_eq]

/-- The five shapes a run of the process can have. -/
theorem mainProcess_cases (env : ProcEnv) :
    (mainProcess env = ⟨[Event.usageMessage], some 1⟩) ∨
    (mainProcess env = ⟨[Event.openInput, Event.cannotOpenInput], some 1⟩) ∨
    (∃ input, env.engine input = none ∧
      mainProcess env =
        ⟨[Event.openInput, Event.gdelInit input.pointVec.length input, Event.gdelCompute],
          none⟩) ∨
    (∃ input,
      mainProcess env =
        ⟨[Event.openInput, Event.gdelInit input.pointVec.length input, Event.gdelCompute,
          Event.openOutput, Event.cannotOpenOutput, Event.gdelDeInit], some 1⟩) ∨
    (∃ input text,
      mainProcess env =
        ⟨[Event.openInput, Event.gdelInit input.pointVec.length input, Event.gdelCompute,
          Event.openOutput, Event.writeOutput text, Event.gdelDeInit], some 0⟩) := by
  by_cases h : env.argc = 3
  · cases hin : env.inFile with
    | none => exact Or.inr (Or.inl (by simp [mainProcess, h, hin]))
    | some tokens =>
      cases he : env.engine (normalizeLoop gridSize (load tokens).extent.minVal
          (load tokens).extent.maxVal (load tokens).rawPts) with
      | none =>
        exact Or.inr (Or.inr (Or.inl ⟨_, he, by simp [mainProcess, h, hin, he]⟩))
      | some outcome =>
        cases hout : env.outFileOpens with
        | false =>
          exact Or.inr (Or.inr (Or.inr (Or.inl
            ⟨normalizeLoop gridSize (load tokens).extent.minVal (load tokens).extent.maxVal
              (load tokens).rawPts, by simp [mainProcess, h, hin, he, hout]⟩)))
        | true =>
          exact Or.inr (Or.inr (Or.inr (Or.inr
            ⟨normalizeLoop gridSize (load tokens).extent.minVal (load tokens).extent.maxVal
              (load tokens).rawPts, writeEdges (extractEdges outcome.tetra),
              by simp [mainProcess, h, hin, he, hout]⟩)))
  · exact Or.inl (by simp [mainProcess, h])

/-! ## Facts about the edge writer -/

theorem digitChar_ne_newline : ∀ m : Nat, m < 10 → Nat.digitChar m ≠ '\n' := by
  decide

theorem toDigitsCore_no_newline (fuel n : Nat) (ds : List Char) (h : '\n' ∉ ds) :
    '\n' ∉ Nat.toDigitsCore 10 fuel n ds := by
  induction fuel generalizing n ds with
  | zero => simpa [Nat.toDigitsCore] using h
  | succ k ih =>
    have hd : '\n' ∉ Nat.digitChar (n % 10) :: ds := by
      simp only [List.mem_cons, not_or]
      exact ⟨fun e => digitChar_ne_newline _ (Nat.mod_lt _ (by decide)) e.symm, h⟩
    simp only [Nat.toDigitsCore]
    split_ifs
    · exact hd
    · exact ih _ _ hd

theorem nat_toString_no_newline (n : Nat) : '\n' ∉ (toString n).data := by
  show '\n' ∉ (Nat.repr n).data
  simp only [Nat.repr, Nat.toDigits, List.asString]
  exact toDigitsCore_no_newline _ _ _ (by simp)

theorem int_toString_no_newline (i : Int) : '\n' ∉ (toString i).data := by
  cases i with
  | ofNat m => exact nat_toString_no_newline m
  | negSucc m =>
    show '\n' ∉ ("-" ++ toString (Nat.succ m)).data
    rw [String.data_append]
    simp only [List.mem_append, not_or]
    exact ⟨by decide, nat_toString_no_newline _⟩

theorem edgeLine_data (s : Segment) :
    (edgeLine s).data = (toString s.v0).data ++ ' ' :: ((toString s.v1).data ++ ['\n']) := by
  simp [edgeLine, String.data_append]

theorem edgeLine_count (s : Segment) : (edgeLine s).data.count '\n' = 1 := by
  rw [edgeLine_data, List.count_append, List.count_cons, List.count_append,
    List.count_eq_zero_of_not_mem (int_toString_no_newline s.v0),
    List.count_eq_zero_of_not_mem (int_toString_no_newline s.v1)]
  decide

theorem writeLoop_count (segVec : List Segment) (acc : String) :
    (segVec.foldl (fun out s => out ++ edgeLine s) acc).data.count '\n'
      = acc.data.count '\n' + segVec.length := by
  induction segVec generalizing acc with
  | nil => simp
  | cons s rest ih =>
    simp only [List.foldl_cons, List.length_cons]
    rw [ih, String.data_append, List.count_append, edgeLine_count]
    omega

/-! ## Facts about runs on few points -/

/-- Fewer than four positions cannot carry four distinct indices: an engine
that keeps its contract returns no tetrahedron. -/
theorem engine_no_tetra (engine : EngineInput → EngineOutcome) (hc : EngineContract engine)
    (input : EngineInput) (hfew : input.pointVec.length < 4) :
    (engine input).tetra = [] := by
  apply List.eq_nil_iff_forall_not_mem.mpr
  intro t ht
  obtain ⟨⟨h01, h02, h03, h12, h13, h23⟩, hidx⟩ := hc input t ht
  have i0 := hidx 0
  have i1 := hidx 1
  have i2 := hidx 2
  have i3 := hidx 3
  simp only [Tetrahedron.vtx] at i0 i1 i2 i3
  omega

theorem mainEngineInput_finite (rawPts : List RawPoint)
    (hext : rawPts = [] ∨ (loadExtent rawPts).minVal < (loadExtent rawPts).maxVal) :
    ∀ p ∈ (mainEngineInput rawPts).pointVec, ∀ c ∈ p.coords, c ≠ none := by
  intro p hp c hc
  simp only [mainEngineInput, normalize, normalizeLoop_eq_map, List.mem_map] at hp
  obtain ⟨rp, hrp, rfl⟩ := hp
  rcases hext with h | hlt
  · rw [h] at hrp; cases hrp
  · simp only [Point3.coords, gridPoint, List.mem_cons, List.mem_singleton, List.not_mem_nil,
      or_false] at hc
    rcases hc with rfl | rfl | rfl <;>
      simp [scalePoint_of_ne _ _ _ _ (ne_of_lt hlt)]

/-! ## The claims on normalisation -/

/-- C1: for a non-empty sequence of raw points whose loader extent has
`min < max` and a grid width `G ≥ 4`, every coordinate of every normalised
point is a number of the closed interval `[1, G - 2]`. -/
theorem normalize_coords_in_grid (G : ℚ) (hG : 4 ≤ G) (rawPts : List RawPoint)
    (_hne : rawPts ≠ [])
    (hlt : (loadExtent rawPts).minVal < (loadExtent rawPts).maxVal) :
    ∀ p ∈ (normalize G rawPts).pointVec, ∀ c ∈ p.coords,
      ∃ q, c = some q ∧ 1 ≤ q ∧ q ≤ G - 2 := by
  intro p hp c hc
  simp only [normalize, normalizeLoop_eq_map, List.mem_map] at hp
  obtain ⟨rp, hrp, rfl⟩ := hp
  obtain ⟨hx, hy, hz⟩ := foldl_extentStep_bounds rawPts initExtent rp hrp
  simp only [Point3.coords, gridPoint, List.mem_cons, List.mem_singleton, List.not_mem_nil,
    or_false] at hc
  rcases hc with rfl | rfl | rfl
  · exact scalePoint_in_grid G _ _ _ hG hlt hx.1 hx.2
  · exact scalePoint_in_grid G _ _ _ hG hlt hy.1 hy.2
  · exact scalePoint_in_grid G _ _ _ hG hlt hz.1 hz.2

theorem loadExtent_sample :
    loadExtent [⟨0, 5, 10, 1⟩, ⟨2, 3, 4, 7⟩] = ⟨0, 10⟩ := by
  norm_num [loadExtent, extentStep, initExtent, FLT_MAX]

theorem normalize_sample :
    (normalize 512 [⟨0, 5, 10, 1⟩, ⟨2, 3, 4, 7⟩]).pointVec
      = [⟨some 1, some (511 / 2), some 510⟩, ⟨some (514 / 5), some (1537 / 10), some (1023 / 5)⟩] := by
  rw [normalize, loadExtent_sample, normalizeLoop_eq_map]
  norm_num [gridPoint, scalePoint, realDiv]

theorem normalize_coords_in_grid_witness :
    (loadExtent [⟨0, 5, 10, 1⟩, ⟨2, 3, 4, 7⟩]).minVal
        < (loadExtent [⟨0, 5, 10, 1⟩, ⟨2, 3, 4, 7⟩]).maxVal ∧
      ∃ q, (some (1537 / 10) : GridVal) = some q ∧ 1 ≤ q ∧ q ≤ (512 : ℚ) - 2 :=
  ⟨by rw [loadExtent_sample]; norm_num,
    normalize_coords_in_grid 512 (by norm_num) [⟨0, 5, 10, 1⟩, ⟨2, 3, 4, 7⟩] (by simp)
      (by rw [loadExtent_sample]; norm_num)
      ⟨some (514 / 5), some (1537 / 10), some (1023 / 5)⟩ (by rw [normalize_sample]; simp)
      (some (1537 / 10)) (by simp [Point3.coords])⟩

/-- C6: for `min ≠ max`, `scalePoint G min max v` is the number
`(G - 3) * (v - min) / (max - min) + 1`; the value `min` is sent to `1` and
the value `max` to `G - 2`. -/
theorem scalePoint_formula (G mn mx v : ℚ) (h : mn ≠ mx) :
    scalePoint G mn mx v = some ((G - 3) * (v - mn) / (mx - mn) + 1) ∧
      scalePoint G mn mx mn = some 1 ∧ scalePoint G mn mx mx = some (G - 2) := by
  have h0 : mx - mn ≠ 0 := fun h0 => h (by linarith)
  refine ⟨scalePoint_of_ne G mn mx v h, ?_, ?_⟩
  · rw [scalePoint_of_ne G mn mx mn h]; simp
  · rw [scalePoint_of_ne G mn mx mx h, mul_div_assoc, div_self h0]; congr 1; ring

theorem scalePoint_formula_witness :
    scalePoint 512 0 10 5 = some ((512 - 3) * (5 - 0) / (10 - 0) + 1) ∧
      scalePoint 512 0 10 0 = some 1 ∧ scalePoint 512 0 10 10 = some (512 - 2) :=
  scalePoint_formula 512 0 10 5 (by norm_num)

/-- C7: for a non-empty cloud of `float` coordinates with `min < max`, a
scale factor `a > 0` and a translation `b`, the cloud whose every spatial
coordinate `c` is replaced by `a * c + b` (again of `float` range) is
normalised to the same grid points, point by point and axis by axis. -/
theorem normalize_similarity_invariant (G a b : ℚ) (ha : 0 < a) (rawPts : List RawPoint)
    (hne : rawPts ≠ [])
    (_hlt : (loadExtent rawPts).minVal < (loadExtent rawPts).maxVal)
    (hr : ∀ rp ∈ rawPts, rp.inFloatRange)
    (hr2 : ∀ rp ∈ rawPts, (rp.affine a b).inFloatRange) :
    (normalize G (rawPts.map (RawPoint.affine a b))).pointVec
      = (normalize G rawPts).pointVec := by
  simp only [normalize, normalizeLoop_eq_map, loadExtent_affine a b ha rawPts hne hr hr2,
    List.map_map]
  apply List.map_congr_left
  intro rp _
  simp only [Function.comp, gridPoint, RawPoint.affine, scalePoint_affine G a b ha]

theorem normalize_similarity_invariant_witness :
    (normalize 512 ([⟨0, 5, 10, 1⟩, ⟨2, 3, 4, 7⟩].map (RawPoint.affine 2 3))).pointVec
      = (normalize 512 [⟨0, 5, 10, 1⟩, ⟨2, 3, 4, 7⟩]).pointVec :=
  normalize_similarity_invariant 512 2 3 (by norm_num) [⟨0, 5, 10, 1⟩, ⟨2, 3, 4, 7⟩]
    (by simp) (by rw [loadExtent_sample]; norm_num)
    (by simp [RawPoint.inFloatRange, FLT_MAX]; norm_num)
    (by simp [RawPoint.inFloatRange, RawPoint.affine, FLT_MAX]; norm_num)

/-- C10 fails on the code: for the single point `(5, 5, 5)` the extent has
zero width, and yet the engine receives one grid point, whose three
coordinates are results of a division by zero. -/
theorem zero_width_not_rejected :
    (loadExtent [⟨5, 5, 5, 1⟩]).maxVal = (loadExtent [⟨5, 5, 5, 1⟩]).minVal ∧
      mainEngineInput [⟨5, 5, 5, 1⟩] = ⟨[⟨none, none, none⟩], [1]⟩ := by
  norm_num [mainEngineInput, normalize, normalizeLoop, loadExtent, extentStep, initExtent,
    gridPoint, scalePoint, realDiv, FLT_MAX]

/-- C10 as amended: when the extent has zero width, normalisation has no
error path; it still hands one grid point and one weight per raw point to
the engine, and every coordinate of every grid point is the result of a
division by zero. -/
theorem zero_width_passed_on (rawPts : List RawPoint)
    (h0 : (loadExtent rawPts).maxVal = (loadExtent rawPts).minVal) :
    (mainEngineInput rawPts).pointVec.length = rawPts.length ∧
      (mainEngineInput rawPts).weightVec = rawPts.map RawPoint.w ∧
      ∀ p ∈ (mainEngineInput rawPts).pointVec, ∀ c ∈ p.coords, c = none := by
  simp only [mainEngineInput, normalize, normalizeLoop_eq_map, List.length_map, h0,
    true_and]
  intro p hp c hc
  obtain ⟨rp, _, rfl⟩ := List.mem_map.mp hp
  simp only [Point3.coords, gridPoint, scalePoint_of_eq, List.mem_cons, List.mem_singleton,
    List.not_mem_nil, or_false, or_self] at hc
  exact hc

theorem zero_width_passed_on_witness :
    (mainEngineInput [⟨7, 7, 7, 2⟩, ⟨7, 7, 7, 3⟩]).pointVec.length = 2 ∧
      (mainEngineInput [⟨7, 7, 7, 2⟩, ⟨7, 7, 7, 3⟩]).weightVec = [2, 3] ∧
      ∀ p ∈ (mainEngineInput [⟨7, 7, 7, 2⟩, ⟨7, 7, 7, 3⟩]).pointVec, ∀ c ∈ p.coords, c = none :=
  zero_width_passed_on [⟨7, 7, 7, 2⟩, ⟨7, 7, 7, 3⟩]
    (by norm_num [loadExtent, extentStep, initExtent, FLT_MAX])

/-! ## The claims on edge extraction -/

/-- C2: an edge occurs in the extractor's output if and only if it is the
canonical form (smaller index first) of one of the six vertex pairs of some
tetrahedron of the list. -/
theorem mem_extractEdges_iff (tetraVec : List Tetrahedron) (e : Segment) :
    e ∈ extractEdges tetraVec ↔
      ∃ t ∈ tetraVec, ∃ i j : Fin 4, i < j ∧
        e = ⟨min (t.vtx i) (t.vtx j), max (t.vtx i) (t.vtx j)⟩ := by
  rw [mem_extractEdges]
  constructor
  · rintro ⟨t, ht, he⟩
    exact ⟨t, ht, (mem_getSegments_iff t e).mp he⟩
  · rintro ⟨t, ht, he⟩
    exact ⟨t, ht, (mem_getSegments_iff t e).mpr he⟩

/-- C3: the output edge list is strictly ascending in the lexicographic
order: every edge is smaller than every later edge, in particular than its
successor, and no edge occurs twice. -/
theorem extractEdges_strictly_ascending (tetraVec : List Tetrahedron) :
    (extractEdges tetraVec).Pairwise Segment.lessThan ∧
      (∀ (i : Nat) (h : i + 1 < (extractEdges tetraVec).length),
        ((extractEdges tetraVec).get ⟨i, Nat.lt_of_succ_lt h⟩).lessThan
          ((extractEdges tetraVec).get ⟨i + 1, h⟩)) ∧
      (extractEdges tetraVec).Nodup := by
  have hs : (extractEdges tetraVec).Pairwise Segment.lessThan :=
    reduceSegments_strict (expandSegments tetraVec)
  refine ⟨hs, ?_, strict_nodup _ hs⟩
  intro i h
  exact List.Sorted.rel_get_of_lt hs (by simp [Fin.lt_def])

/-- The tetrahedra an engine returns under its contract give only edges whose
first index is strictly less than the second. -/
theorem engine_edges_first_lt_second (engine : EngineInput → EngineOutcome)
    (hc : EngineContract engine) (input : EngineInput) :
    ∀ e ∈ extractEdges (engine input).tetra, e.v0 < e.v1 := by
  intro e he
  obtain ⟨t, ht, hmem⟩ := (mem_extractEdges _ e).mp he
  exact getSegments_lt t (hc input t ht).1 e hmem

/-- C4: for every list of tetrahedra, each on four pairwise distinct vertex
indices as the engine returns them, and every edge in the output, the first
index is strictly less than the second index. -/
theorem extractEdges_first_lt_second (tetraVec : List Tetrahedron)
    (hd : ∀ t ∈ tetraVec, t.distinct) :
    ∀ e ∈ extractEdges tetraVec, e.v0 < e.v1 := by
  intro e he
  obtain ⟨t, ht, hmem⟩ := (mem_extractEdges tetraVec e).mp he
  exact getSegments_lt t (hd t ht) e hmem

theorem extractEdges_first_lt_second_witness :
    (⟨1, 4⟩ : Segment) ∈ extractEdges [⟨0, 1, 2, 3⟩, ⟨3, 1, 2, 4⟩] ∧
      (∀ t ∈ [(⟨0, 1, 2, 3⟩ : Tetrahedron), ⟨3, 1, 2, 4⟩], t.distinct) ∧
      (⟨1, 4⟩ : Segment).v0 < (⟨1, 4⟩ : Segment).v1 :=
  ⟨by decide, by decide,
    extractEdges_first_lt_second [⟨0, 1, 2, 3⟩, ⟨3, 1, 2, 4⟩] (by decide) ⟨1, 4⟩ (by decide)⟩

/-- C5: for a single tetrahedron on four distinct vertex indices the output
has exactly 6 edges, and an edge is in it if and only if it is a pair
`(x, y)` of two of the four indices with `x < y`. -/
theorem extractEdges_single (t : Tetrahedron) (hd : t.distinct) :
    (extractEdges [t]).length = 6 ∧
      ∀ e, e ∈ extractEdges [t] ↔
        ∃ x y, x ∈ [t.v0, t.v1, t.v2, t.v3] ∧ y ∈ [t.v0, t.v1, t.v2, t.v3] ∧ x < y ∧
          e = ⟨x, y⟩ := by
  have hmem : ∀ e, e ∈ extractEdges [t] ↔ e ∈ t.getSegments := by
    intro e
    rw [mem_extractEdges]
    simp
  constructor
  · have hp : (extractEdges [t]).Perm t.getSegments :=
      (List.perm_ext_iff_of_nodup
        (strict_nodup _ (reduceSegments_strict _)) (getSegments_nodup t hd)).mpr hmem
    rw [hp.length_eq]
    rfl
  · intro e
    rw [hmem]
    exact mem_getSegments_pairs t hd e

theorem extractEdges_single_witness :
    (extractEdges [⟨7, 2, 9, 4⟩]).length = 6 ∧
      ∀ e, e ∈ extractEdges [⟨7, 2, 9, 4⟩] ↔
        ∃ x y, x ∈ [(7 : Int), 2, 9, 4] ∧ y ∈ [(7 : Int), 2, 9, 4] ∧ x < y ∧ e = ⟨x, y⟩ :=
  extractEdges_single ⟨7, 2, 9, 4⟩ (by decide)

/-- C8: two tetrahedron lists containing the same tetrahedra, in whatever
order and multiplicity, give the identical edge list. -/
theorem extractEdges_set_determined (l1 l2 : List Tetrahedron)
    (h : ∀ t, t ∈ l1 ↔ t ∈ l2) : extractEdges l1 = extractEdges l2 := by
  apply strict_ext
  · exact reduceSegments_strict _
  · exact reduceSegments_strict _
  · intro e
    rw [mem_extractEdges, mem_extractEdges]
    constructor
    · rintro ⟨t, ht, he⟩
      exact ⟨t, (h t).mp ht, he⟩
    · rintro ⟨t, ht, he⟩
      exact ⟨t, (h t).mpr ht, he⟩

theorem extractEdges_set_determined_witness :
    extractEdges [⟨0, 1, 2, 3⟩, ⟨3, 1, 2, 4⟩, ⟨0, 1, 2, 3⟩]
      = extractEdges [⟨3, 1, 2, 4⟩, ⟨0, 1, 2, 3⟩] :=
  extractEdges_set_determined _ _ (by
    intro t
    simp only [List.mem_cons, List.mem_singleton, List.not_mem_nil, or_false]
    tauto)

/-- C9: the reduction step (sort, then remove adjacent duplicates) applied
to the already reduced edge list returns that list unchanged. -/
theorem reduceSegments_idempotent (tetraVec : List Tetrahedron) :
    reduceSegments (extractEdges tetraVec) = extractEdges tetraVec :=
  reduceSegments_of_strict _ (reduceSegments_strict (expandSegments tetraVec))

/-! ## The claims on loading and on the engine input -/

/-- C12: the grid-point and weight sequences handed to the engine have the
length of the raw-point sequence; at every index the weight is the `w` of the
raw point at that index, unchanged, and the grid point is the normalisation
of its `x`, `y`, `z`. -/
theorem engine_input_parallel (rawPts : List RawPoint) :
    (mainEngineInput rawPts).pointVec.length = rawPts.length ∧
      (mainEngineInput rawPts).weightVec.length = rawPts.length ∧
      ∀ i : Nat,
        (mainEngineInput rawPts).weightVec[i]? = (rawPts[i]?).map RawPoint.w ∧
        (mainEngineInput rawPts).pointVec[i]? = (rawPts[i]?).map (fun rp =>
          (⟨scalePoint gridSize (loadExtent rawPts).minVal (loadExtent rawPts).maxVal rp.x,
            scalePoint gridSize (loadExtent rawPts).minVal (loadExtent rawPts).maxVal rp.y,
            scalePoint gridSize (loadExtent rawPts).minVal (loadExtent rawPts).maxVal rp.z⟩
            : Point3)) := by
  simp only [mainEngineInput, normalize, normalizeLoop_eq_map, List.length_map,
    List.getElem?_map, true_and]
  intro i
  rfl

/-- C13: for a non-empty sequence of raw points with `float` coordinates the
loader's extent is the joint minimum and maximum of all `x`, `y`, `z`: it
bounds every spatial coordinate, both bounds are spatial coordinates of some
point, `min ≤ max`, and the weights have no part in it. -/
theorem loadExtent_exact (rawPts : List RawPoint) (hne : rawPts ≠ [])
    (hr : ∀ rp ∈ rawPts, rp.inFloatRange) :
    (∀ rp ∈ rawPts,
      ((loadExtent rawPts).minVal ≤ rp.x ∧ rp.x ≤ (loadExtent rawPts).maxVal) ∧
      ((loadExtent rawPts).minVal ≤ rp.y ∧ rp.y ≤ (loadExtent rawPts).maxVal) ∧
      ((loadExtent rawPts).minVal ≤ rp.z ∧ rp.z ≤ (loadExtent rawPts).maxVal)) ∧
    (∃ rp ∈ rawPts, (loadExtent rawPts).minVal = rp.x ∨ (loadExtent rawPts).minVal = rp.y ∨
      (loadExtent rawPts).minVal = rp.z) ∧
    (∃ rp ∈ rawPts, (loadExtent rawPts).maxVal = rp.x ∨ (loadExtent rawPts).maxVal = rp.y ∨
      (loadExtent rawPts).maxVal = rp.z) ∧
    (loadExtent rawPts).minVal ≤ (loadExtent rawPts).maxVal ∧
    (∀ f : RawPoint → ℚ,
      loadExtent (rawPts.map (fun rp => ⟨rp.x, rp.y, rp.z, f rp⟩)) = loadExtent rawPts) := by
  have hb := foldl_extentStep_bounds rawPts initExtent
  refine ⟨hb, ?_, ?_, ?_, ?_⟩
  · cases rawPts with
    | nil => exact absurd rfl hne
    | cons p rest =>
      have h1 := extentStep_init p (hr p (List.mem_cons_self _ _))
      have ha := (foldl_extentStep_attained rest (extentStep initExtent p)).1
      simp only [loadExtent, List.foldl_cons]
      rcases ha with h | ⟨r, hrm, h⟩
      · refine ⟨p, List.mem_cons_self _ _, ?_⟩
        rw [h, h1]
        simp only
        rcases min_choice (min p.x p.y) p.z with hz | hz
        · rcases min_choice p.x p.y with hy | hy
          · left; rw [hz, hy]
          · right; left; rw [hz, hy]
        · right; right; exact hz
      · exact ⟨r, List.mem_cons_of_mem _ hrm, h⟩
  · cases rawPts with
    | nil => exact absurd rfl hne
    | cons p rest =>
      have h1 := extentStep_init p (hr p (List.mem_cons_self _ _))
      have ha := (foldl_extentStep_attained rest (extentStep initExtent p)).2
      simp only [loadExtent, List.foldl_cons]
      rcases ha with h | ⟨r, hrm, h⟩
      · refine ⟨p, List.mem_cons_self _ _, ?_⟩
        rw [h, h1]
        simp only
        rcases max_choice (max p.x p.y) p.z with hz | hz
        · rcases max_choice p.x p.y with hy | hy
          · left; rw [hz, hy]
          · right; left; rw [hz, hy]
        · right; right; exact hz
      · exact ⟨r, List.mem_cons_of_mem _ hrm, h⟩
  · cases rawPts with
    | nil => exact absurd rfl hne
    | cons p rest =>
      have h := (hb p (List.mem_cons_self _ _)).1
      exact le_trans h.1 h.2
  · intro f
    simp only [loadExtent, List.foldl_map]
    rfl

theorem loadExtent_exact_witness :
    (loadExtent [⟨0, 5, 10, 1⟩, ⟨2, 3, 4, 7⟩]).minVal
      ≤ (loadExtent [⟨0, 5, 10, 1⟩, ⟨2, 3, 4, 7⟩]).maxVal :=
  (loadExtent_exact [⟨0, 5, 10, 1⟩, ⟨2, 3, 4, 7⟩] (by simp)
    (by simp [RawPoint.inFloatRange, FLT_MAX]; norm_num)).2.2.2.1

/-- C14: for every token stream the loader returns, in input order, the
complete quadruples of the longest prefix of well-formed numbers, with the
extent of exactly these points; a stream made of the numbers of some points,
then fewer than four further numbers, then nothing or a malformed token and
anything after it, yields these points and their extent; the loop has then
stopped, and the loader has no error outcome. -/
theorem load_quadruples (tokens : List Token) :
    load tokens
        = ⟨quadruples (numberPrefix tokens), loadExtent (quadruples (numberPrefix tokens))⟩ ∧
      (∀ (rawPts : List RawPoint) (tail : List ℚ) (rest : List Token),
        tail.length < 4 → (rest = [] ∨ ∃ r, rest = none :: r) →
        tokens = rawPts.flatMap RawPoint.tokens ++ tail.map some ++ rest →
        load tokens = ⟨rawPts, loadExtent rawPts⟩) ∧
      (∀ fuel, tokens.length ≤ fuel → readLoop fuel tokens ⟨[], initExtent⟩ = load tokens) := by
  refine ⟨load_spec tokens, ?_, fun fuel h => readLoop_fuel fuel tokens h⟩
  intro rawPts tail rest ht hrest he
  rw [load_spec, he, numberPrefix_tokens rawPts tail rest hrest,
    quadruples_flatMap rawPts tail ht]

theorem load_quadruples_witness :
    load [some 1, some 2, some 3, some 4, some 5, none, some 7]
      = ⟨[⟨1, 2, 3, 4⟩], loadExtent [⟨1, 2, 3, 4⟩]⟩ :=
  (load_quadruples [some 1, some 2, some 3, some 4, some 5, none, some 7]).2.1
    [⟨1, 2, 3, 4⟩] [5] [none, some 7] (by decide) (Or.inr ⟨[some 7], rfl⟩) rfl

/-- C19: when zero points are read, the point sequence is empty, the extent
is still `(max(), lowest())` with `min > max`, and the normalisation loop
yields empty grid-point and weight sequences whatever function stands in the
place of `scalePoint`. -/
theorem load_zero_points (tokens : List Token) (h : (load tokens).rawPts = []) :
    (load tokens).extent = ⟨FLT_MAX, -FLT_MAX⟩ ∧
      (load tokens).extent.minVal > (load tokens).extent.maxVal ∧
      (∀ scale G,
        normalizeLoopWith scale G (load tokens).extent.minVal (load tokens).extent.maxVal
          (load tokens).rawPts = ⟨[], []⟩) ∧
      normalizeLoop gridSize (load tokens).extent.minVal (load tokens).extent.maxVal
        (load tokens).rawPts = ⟨[], []⟩ := by
  have he : (load tokens).extent = ⟨FLT_MAX, -FLT_MAX⟩ := by
    rw [load_extent, h]; rfl
  refine ⟨he, ?_, ?_, ?_⟩
  · rw [he]; simp only [FLT_MAX]; norm_num
  · intro scale G
    rw [h]; rfl
  · rw [h]; rfl

theorem load_zero_points_witness :
    (load [some 1, some 2, none, some 4]).rawPts = [] ∧
      (load [some 1, some 2, none, some 4]).extent = ⟨FLT_MAX, -FLT_MAX⟩ :=
  ⟨by simp [load, readLoop, readQuad, extract],
    (load_zero_points [some 1, some 2, none, some 4]
      (by simp [load, readLoop, readQuad, extract])).1⟩

/-- C20: for `min < max` and `G > 3`, `scalePoint` is strictly increasing in
its input value, hence sends distinct values to distinct grid coordinates. -/
theorem scalePoint_strictMono (G mn mx : ℚ) (hG : 3 < G) (hlt : mn < mx) (v₁ v₂ : ℚ) :
    (v₁ < v₂ → ∃ q₁ q₂, scalePoint G mn mx v₁ = some q₁ ∧ scalePoint G mn mx v₂ = some q₂ ∧
      q₁ < q₂) ∧
    (v₁ ≠ v₂ → scalePoint G mn mx v₁ ≠ scalePoint G mn mx v₂) := by
  have hne : mn ≠ mx := ne_of_lt hlt
  have hr : 0 < mx - mn := by linarith
  have hg : 0 < G - 3 := by linarith
  have mono : ∀ a b : ℚ, a < b →
      (G - 3) * (a - mn) / (mx - mn) + 1 < (G - 3) * (b - mn) / (mx - mn) + 1 := by
    intro a b hab
    have h1 : (G - 3) * (a - mn) < (G - 3) * (b - mn) :=
      mul_lt_mul_of_pos_left (by linarith) hg
    have h2 := div_lt_div_of_pos_right h1 hr
    linarith
  constructor
  · intro h
    exact ⟨_, _, scalePoint_of_ne G mn mx v₁ hne, scalePoint_of_ne G mn mx v₂ hne, mono _ _ h⟩
  · intro h
    rw [scalePoint_of_ne G mn mx v₁ hne, scalePoint_of_ne G mn mx v₂ hne]
    intro he
    have he2 := Option.some.inj he
    rcases lt_or_gt_of_ne h with h3 | h3
    · exact absurd he2 (ne_of_lt (mono _ _ h3))
    · exact absurd he2.symm (ne_of_lt (mono _ _ h3))

theorem scalePoint_strictMono_witness :
    ∃ q₁ q₂, scalePoint 512 0 10 2 = some q₁ ∧ scalePoint 512 0 10 5 = some q₂ ∧ q₁ < q₂ :=
  (scalePoint_strictMono 512 0 10 (by norm_num) (by norm_num) 2 5).1 (by norm_num)

/-! ## The claims on the run of the program -/

/-- C15 fails on the code: when the engine's computation does not return to
`main`, the engine has been initialised and `gdelDeInit` is never reached. -/
theorem engine_failure_skips_teardown :
    Event.gdelInit 1 ⟨[⟨some 1, some (511 / 2), some 510⟩], [1]⟩ ∈
        (mainProcess ⟨3, some [some 0, some 5, some 10, some 1], true, fun _ => none⟩).trace ∧
      (mainProcess ⟨3, some [some 0, some 5, some 10, some 1], true,
        fun _ => none⟩).trace.count Event.gdelDeInit = 0 ∧
      (mainProcess ⟨3, some [some 0, some 5, some 10, some 1], true,
        fun _ => none⟩).exitCode = none := by
  have hl : load [some 0, some 5, some 10, some 1] = ⟨[⟨0, 5, 10, 1⟩], ⟨0, 10⟩⟩ := by
    norm_num [load, readLoop, readQuad, extract, extentStep, initExtent, FLT_MAX]
  have hn : normalizeLoop gridSize 0 10 [⟨0, 5, 10, 1⟩]
      = ⟨[⟨some 1, some (511 / 2), some 510⟩], [1]⟩ := by
    rw [normalizeLoop_eq_map]
    norm_num [gridPoint, scalePoint, realDiv, gridSize]
  simp [mainProcess, hl, hn]

/-- C15 as amended: in every run in which the engine is initialised and
`main` returns, `gdelDeInit` occurs exactly once, as the last step before
the return, on both exit paths after initialisation (success, output file
cannot be opened); it never occurs before `gdelCompute`, and initialisation
stands before the computation. -/
theorem engine_torn_down_if_returns (env : ProcEnv) (n : Nat) (input : EngineInput)
    (h : Event.gdelInit n input ∈ (mainProcess env).trace)
    (hret : (mainProcess env).exitCode ≠ none) :
    (mainProcess env).trace.count Event.gdelDeInit = 1 ∧
      (mainProcess env).trace.getLast? = some Event.gdelDeInit ∧
      ((mainProcess env).exitCode = some 0 ∨ (mainProcess env).exitCode = some 1) ∧
      ∃ before after, (mainProcess env).trace = before ++ Event.gdelCompute :: after ∧
        Event.gdelInit n input ∈ before ∧ Event.gdelDeInit ∉ before ∧
        Event.gdelDeInit ∈ after := by
  rcases mainProcess_cases env with hm | hm | ⟨i, _, hm⟩ | ⟨i, hm⟩ | ⟨i, text, hm⟩
  · rw [hm] at h; simp at h
  · rw [hm] at h; simp at h
  · rw [hm] at hret; exact absurd rfl hret
  · rw [hm] at h ⊢
    simp only [List.mem_cons, List.mem_singleton, List.not_mem_nil, or_false,
      reduceCtorEq, false_or] at h
    refine ⟨by simp [List.count_cons], by simp, Or.inr rfl,
      [Event.openInput, Event.gdelInit n input],
      [Event.openOutput, Event.cannotOpenOutput, Event.gdelDeInit], ?_, by simp, by simp,
      by simp⟩
    rw [h]
    rfl
  · rw [hm] at h ⊢
    simp only [List.mem_cons, List.mem_singleton, List.not_mem_nil, or_false,
      reduceCtorEq, false_or] at h
    refine ⟨by simp [List.count_cons], by simp, Or.inl rfl,
      [Event.openInput, Event.gdelInit n input],
      [Event.openOutput, Event.writeOutput text, Event.gdelDeInit],
      ?_, by simp, by simp, by simp⟩
    rw [h]
    rfl

theorem engine_torn_down_if_returns_witness :
    Event.gdelInit 0 ⟨[], []⟩ ∈
        (mainProcess ⟨3, some [], false, fun _ => some ⟨true, []⟩⟩).trace ∧
      (mainProcess ⟨3, some [], false, fun _ => some ⟨true, []⟩⟩).exitCode ≠ none ∧
      (mainProcess ⟨3, some [], false,
        fun _ => some ⟨true, []⟩⟩).trace.count Event.gdelDeInit = 1 :=
  ⟨by simp [mainProcess, load, readLoop, normalizeLoop],
    by simp [mainProcess, load, readLoop, normalizeLoop],
    (engine_torn_down_if_returns ⟨3, some [], false, fun _ => some ⟨true, []⟩⟩ 0 ⟨[], []⟩
      (by simp [mainProcess, load, readLoop, normalizeLoop])
      (by simp [mainProcess, load, readLoop, normalizeLoop])).1⟩

/-- C17: when the input file cannot be opened, the run ends with exit code 1;
the output file is never opened nor written and the engine is never
initialised. -/
theorem input_unopenable (env : Env) (h : env.inFile = none) :
    (main env).exitCode = 1 ∧
      Event.openOutput ∉ (main env).trace ∧
      Event.cannotOpenOutput ∉ (main env).trace ∧
      (∀ text, Event.writeOutput text ∉ (main env).trace) ∧
      (∀ n input, Event.gdelInit n input ∉ (main env).trace) ∧
      Event.gdelCompute ∉ (main env).trace := by
  rcases main_cases env with ⟨h1, hm⟩ | ⟨h1, h2, hm⟩ | ⟨tokens, h1, h2, h3, hm⟩ |
      ⟨tokens, h1, h2, h3, hm⟩
  · rw [hm]; simp
  · rw [hm]; simp
  · rw [h] at h2; cases h2
  · rw [h] at h2; cases h2

theorem input_unopenable_witness :
    (main ⟨3, none, true, fun _ => ⟨false, []⟩⟩).exitCode = 1 ∧
      Event.openOutput ∉ (main ⟨3, none, true, fun _ => ⟨false, []⟩⟩).trace :=
  ⟨(input_unopenable ⟨3, none, true, fun _ => ⟨false, []⟩⟩ rfl).1,
    (input_unopenable ⟨3, none, true, fun _ => ⟨false, []⟩⟩ rfl).2.1⟩

/-- C18: the writer emits the lines of the edges one after another in the
order of the list and nothing else; the line of an edge is its first index,
one space, its second index and a newline; the text holds as many newlines
as there are edges, and for no edge it is empty. -/
theorem writeEdges_spec (segVec : List Segment) :
    writeEdges segVec = String.join (segVec.map edgeLine) ∧
      (segVec.map edgeLine).length = segVec.length ∧
      (∀ s : Segment, edgeLine s = toString s.v0 ++ " " ++ toString s.v1 ++ "\n" ∧
        (edgeLine s).data.count '\n' = 1 ∧ (edgeLine s).data.getLast? = some '\n') ∧
      (writeEdges segVec).data.count '\n' = segVec.length ∧
      writeEdges [] = "" := by
  refine ⟨?_, by simp, ?_, ?_, rfl⟩
  · simp [writeEdges, String.join, List.foldl_map]
  · intro s
    refine ⟨rfl, edgeLine_count s, ?_⟩
    rw [edgeLine_data]
    simp [List.getLast?_append, List.getLast?_cons]
  · rw [writeEdges, writeLoop_count]
    simp

/-- C11 fails on the code: a single point with `x = y = z` is an input of
fewer than 4 points, and the run hands the engine a grid point whose
coordinates come from a division by zero. -/
theorem few_points_division_by_zero :
    (load [some 3, some 3, some 3, some 1]).rawPts.length < 4 ∧
      ∃ n input,
        Event.gdelInit n input ∈
          (main ⟨3, some [some 3, some 3, some 3, some 1], true, fun _ => ⟨false, []⟩⟩).trace ∧
        ∃ p ∈ input.pointVec, none ∈ p.coords := by
  have hl : load [some 3, some 3, some 3, some 1] = ⟨[⟨3, 3, 3, 1⟩], ⟨3, 3⟩⟩ := by
    norm_num [load, readLoop, readQuad, extract, extentStep, initExtent, FLT_MAX]
  refine ⟨by rw [hl]; decide, 1, ⟨[⟨none, none, none⟩], [1]⟩, ?_, ⟨none, none, none⟩, by simp,
    by simp [Point3.coords]⟩
  simp [main, hl, normalizeLoop, gridPoint, scalePoint_of_eq]

/-- C11 as amended: for an input of fewer than 4 points that has no point at
all or an extent with `min < max`, with both files opening and an engine that
returns only tetrahedra on four distinct positions of the point sequence, the
run ends with exit code 0, no coordinate handed to the engine comes from a
division by zero, and the text written to the output file is empty. -/
theorem few_points_run (env : Env) (tokens : List Token)
    (hargc : env.argc = 3) (hin : env.inFile = some tokens) (hout : env.outFileOpens = true)
    (hfew : (load tokens).rawPts.length < 4)
    (hext : (load tokens).rawPts = [] ∨
      (load tokens).extent.minVal < (load tokens).extent.maxVal)
    (hc : EngineContract env.engine) :
    (main env).exitCode = 0 ∧
      (∀ n input, Event.gdelInit n input ∈ (main env).trace →
        ∀ p ∈ input.pointVec, ∀ c ∈ p.coords, c ≠ none) ∧
      Event.writeOutput "" ∈ (main env).trace ∧
      (∀ text, Event.writeOutput text ∈ (main env).trace → text = "") ∧
      (main env).trace.getLast? = some Event.gdelDeInit := by
  have hlen : (mainEngineInput (load tokens).rawPts).pointVec.length < 4 := by
    simpa [mainEngineInput, normalize, normalizeLoop_eq_map] using hfew
  have ht := engine_no_tetra env.engine hc _ hlen
  have hw : writeEdges (extractEdges
      (env.engine (mainEngineInput (load tokens).rawPts)).tetra) = "" := by
    rw [ht]; rfl
  rw [main_success env tokens hargc hin hout, hw]
  refine ⟨rfl, ?_, by simp, ?_, by simp⟩
  · intro n input h
    simp only [List.mem_cons, List.mem_singleton, List.not_mem_nil, or_false,
      reduceCtorEq, false_or] at h
    have hi : input = mainEngineInput (load tokens).rawPts := (Event.gdelInit.inj h).2
    rw [hi]
    apply mainEngineInput_finite
    rw [← load_extent]
    exact hext
  · intro text h
    simp only [List.mem_cons, List.mem_singleton, List.not_mem_nil, or_false,
      reduceCtorEq, false_or] at h
    exact Event.writeOutput.inj h

theorem engine_contract_none : EngineContract (fun _ => ⟨false, []⟩) := by
  intro input t ht
  cases ht

theorem few_points_run_witness :
    (main ⟨3, some [some 0, some 5, some 10, some 1, some 2], true,
      fun _ => ⟨false, []⟩⟩).exitCode = 0 ∧
    Event.writeOutput "" ∈ (main ⟨3, some [some 0, some 5, some 10, some 1, some 2], true,
      fun _ => ⟨false, []⟩⟩).trace :=
  have hl : load [some 0, some 5, some 10, some 1, some 2] = ⟨[⟨0, 5, 10, 1⟩], ⟨0, 10⟩⟩ := by
    norm_num [load, readLoop, readQuad, extract, extentStep, initExtent, FLT_MAX]
  have hr := few_points_run ⟨3, some [some 0, some 5, some 10, some 1, some 2], true,
      fun _ => ⟨false, []⟩⟩ [some 0, some 5, some 10, some 1, some 2] rfl rfl rfl
      (by rw [hl]; decide) (by rw [hl]; right; norm_num) engine_contract_none
  ⟨hr.1, hr.2.2.1⟩

end GDelaunay
